import Mathlib

set_option maxRecDepth 8192

namespace Morloc

/-! Verification of the Morloc pygments lexer (src/morloc.py).

The repository contributes the rule table of `MorlocLexer` (a pygments
`RegexLexer` subclass).  The rule table below is translated directly from
`src/morloc.py`.  The generic driver (cursor, state stack, first-match-wins
scan, `bygroups` splitting, Error fallback) and the anchored pattern matcher
are provided by the host framework and are not part of this repository's
sources; they are modelled from the specification (spec.md section 4.1), as
marked on each such definition.

Unicode caveat: the source uses `pygments.unistring.Ll`/`Lu` (Unicode
lowercase/uppercase letters) and Python's Unicode `\w`/`\s`/`\d`.  The
embedding restricts these character classes to their ASCII portion, which is
the fragment exercised by every claim. -/

/-- Token categories used by the rule table (pygments token types).
`Str` is pygments `String`, `StrEscape` is `String.Escape`,
`KeywordReserved` is `Keyword.Reserved`, `OperatorWord` is `Operator.Word`,
`NameBuiltin` is `Name.Builtin`, `KeywordType` is `Keyword.Type`. -/
inductive Tok where
  | Text
  | Whitespace
  | Error
  | Keyword
  | KeywordReserved
  | KeywordType
  | Name
  | NameBuiltin
  | OperatorWord
  | NumberFloat
  | NumberBin
  | NumberOct
  | NumberHex
  | NumberInteger
  | Str
  | StrEscape
  | Punctuation
  | CommentSingle
  | CommentMultiline
  deriving DecidableEq

/-- The named lexer states of `MorlocLexer.tokens`. -/
inductive SName where
  | root
  | comment
  | module
  | string
  | escape
  | sourcelist
  | importList
  deriving DecidableEq

/-- State-stack transitions: `push s` enters a named state, `pushSame` is the
pygments `"#push"` directive (push the current state again), `pop` is
`"#pop"`. -/
inductive StackOp where
  | push (s : SName)
  | pushSame
  | pop
  deriving DecidableEq

/-- A rule's output action: a single token over the whole match, or
`bygroups`: one token per capture group. -/
inductive Action where
  | tok (t : Tok)
  | byGroups (ts : List Tok)

/-- Regular expressions over characters, sufficient for the patterns of
`MorlocLexer`.  `cls p` is a one-character class, `lit s` a literal string,
`group` a capturing group, `bol`/`eol` are `^`/`$` under `re.MULTILINE`
(the default flags of a pygments `RegexLexer`), `wordB` is `\b`. -/
inductive Regex where
  | eps
  | cls (p : Char → Bool)
  | lit (s : List Char)
  | cat (a b : Regex)
  | alt (a b : Regex)
  | star (r : Regex)
  | group (r : Regex)
  | bol
  | eol
  | wordB

/-- An emitted span: `[start, stop)` over the input, with its category. -/
structure Span where
  start : Nat
  stop : Nat
  tok : Tok
  deriving DecidableEq

/-- A rule of a lexer state: pattern, action, state-stack transition. -/
structure Rule where
  pattern : Regex
  action : Action
  trans : List StackOp

/-- Python `\w` (ASCII fragment): letters, digits, underscore. -/
def isWordC (c : Char) : Bool := c.isAlphanum || c == '_'

/-- Python `\s` (ASCII fragment). -/
def isSpaceC (c : Char) : Bool :=
  c == ' ' || c == '\t' || c == '\n' || c == '\r' || c == '\x0b' || c == '\x0c'

/-- Class `pygments.unistring.Ll` restricted to ASCII: lowercase letters. -/
def isLl (c : Char) : Bool := c.isLower

/-- Class `pygments.unistring.Lu` restricted to ASCII: uppercase letters. -/
def isLu (c : Char) : Bool := c.isUpper

/-- Pattern `[\da-fA-F]`. -/
def isHexD (c : Char) : Bool :=
  c.isDigit || ('a' ≤ c && c ≤ 'f') || ('A' ≤ c && c ≤ 'F')

/-- Pattern `.` without `re.DOTALL`: any character except a newline. -/
def notNl (c : Char) : Bool := c != '\n'

/-- Is the character at index `i` a word character (false out of range)? -/
def wAt (text : List Char) (i : Nat) : Bool :=
  match text[i]? with
  | some c => isWordC c
  | none => false

/-- Pattern `^` under `re.MULTILINE`: start of input or just after a newline. -/
def bolAt (text : List Char) (pos : Nat) : Bool :=
  pos == 0 || text[pos - 1]? == some '\n'

/-- Pattern `$` under `re.MULTILINE`: end of input or looking at a newline. -/
def eolAt (text : List Char) (pos : Nat) : Bool :=
  match text[pos]? with
  | some c => c == '\n'
  | none => true

/-- Pattern `\b`: a word/non-word boundary. -/
def wordBAt (text : List Char) (pos : Nat) : Bool :=
  (if pos == 0 then false else wAt text (pos - 1)) != wAt text pos

/-- Modelled from the spec: the anchored pattern matcher of the host regex
engine.  `mat text fuel r pos` enumerates the possible matches of `r` at
position `pos` as `(end, captures)` pairs, in Python backtracking priority
order: first alternative first, greedy repetition (more iterations) first.
The head of the list is the match Python's `re` would produce.  Captures are
`(start, end)` offsets listed in group prefix order.  `fuel` bounds the
recursion; every repetition body in the table consumes at least one
character, so the fuel chosen in `pyMatch` is never exhausted. -/
def mat (text : List Char) : Nat → Regex → Nat → List (Nat × List (Nat × Nat))
  | 0, _, _ => []
  | _ + 1, .eps, pos => [(pos, [])]
  | _ + 1, .cls p, pos =>
    match text[pos]? with
    | some c => if p c then [(pos + 1, [])] else []
    | none => []
  | _ + 1, .lit s, pos =>
    if s.isPrefixOf (text.drop pos) then [(pos + s.length, [])] else []
  | fuel + 1, .cat a b, pos =>
    (mat text fuel a pos).flatMap fun q =>
      (mat text fuel b q.1).map fun q2 => (q2.1, q.2 ++ q2.2)
  | fuel + 1, .alt a b, pos => mat text fuel a pos ++ mat text fuel b pos
  | fuel + 1, .star r, pos =>
    (((mat text fuel r pos).filter fun q => decide (pos < q.1)).flatMap fun q =>
      (mat text fuel (.star r) q.1).map fun q2 => (q2.1, q.2 ++ q2.2)) ++ [(pos, [])]
  | fuel + 1, .group r, pos =>
    (mat text fuel r pos).map fun q => (q.1, (pos, q.1) :: q.2)
  | _ + 1, .bol, pos => if bolAt text pos then [(pos, [])] else []
  | _ + 1, .eol, pos => if eolAt text pos then [(pos, [])] else []
  | _ + 1, .wordB, pos => if wordBAt text pos then [(pos, [])] else []

/-- Fuel that is ample for every pattern of the table on a given input (each
repetition iteration consumes at least one character, and the patterns nest
far less than 200 deep). -/
def bigFuel (text : List Char) : Nat := (text.length + 2) * 200

/-- Modelled from the spec: the anchored match attempt of a rule pattern at a
cursor position — the highest-priority match, as Python's `re.match` would
return anchored at `pos`. -/
def pyMatch (text : List Char) (r : Regex) (pos : Nat) :
    Option (Nat × List (Nat × Nat)) :=
  (mat text (bigFuel text) r pos).head?

/-- Pattern `r+`. -/
def plus (r : Regex) : Regex := .cat r (.star r)

/-- Pattern `r?`. -/
def opt (r : Regex) : Regex := .alt r .eps

/-- Literal string pattern. -/
def rlit (s : String) : Regex := .lit s.data

/-- Plain concatenation of a pattern list. -/
def rcat : List Regex → Regex
  | [] => .eps
  | [r] => r
  | r :: rs => .cat r (rcat rs)

/-- A sequence of capture groups `(r1)(r2)...(rn)`, the shape of every
`bygroups` pattern in the table. -/
def gcat : List Regex → Regex
  | [] => .eps
  | r :: rs => .cat (.group r) (gcat rs)

/-- Pattern `[\w']` (identifier tail in root). -/
def identTailCls (c : Char) : Bool := isWordC c || c == Char.ofNat 39

/-- Pattern `[\w+]` (the single-character class of the `export` rule). -/
def exportCls (c : Char) : Bool := isWordC c || c == '+'

/-- Pattern `[a-zA-Z.]` (first character of an import name). -/
def importHeadCls (c : Char) : Bool := c.isAlpha || c == '.'

/-- Pattern `[\w.]` (module-name tail). -/
def moduleTailCls (c : Char) : Bool := isWordC c || c == '.'

/-- Pattern `[^\]]`. -/
def notRBracket (c : Char) : Bool := c != ']'

/-- Pattern `[^)]`. -/
def notRParen (c : Char) : Bool := c != ')'

/-- Pattern `[^"]`. -/
def notDq (c : Char) : Bool := c != '"'

/-- Pattern `[:!#$%&*+.\\/<=>?@^|~-]` (promoted type operators). -/
def promotedOpCls (c : Char) : Bool :=
  [':', '!', '#', '$', '%', '&', '*', '+', '.', '\\', '/', '<', '=', '>', '?',
    '@', '^', '|', '~', '-'].contains c

/-- Pattern `[][(),;`\x7b\x7d]` (root punctuation class). -/
def punctCls (c : Char) : Bool :=
  [']', '[', '(', ')', ',', ';', Char.ofNat 96, Char.ofNat 123,
    Char.ofNat 125].contains c

/-- Pattern `[^-\x7b\x7d]` (plain block-comment character). -/
def notCommentSpecial (c : Char) : Bool :=
  !(c == '-' || c == Char.ofNat 123 || c == Char.ofNat 125)

/-- Pattern `[-\x7b\x7d]`. -/
def commentSpecial (c : Char) : Bool :=
  c == '-' || c == Char.ofNat 123 || c == Char.ofNat 125

/-- Pattern `[abfnrtv"'&\\]` (one-character escapes). -/
def escCharCls (c : Char) : Bool :=
  ['a', 'b', 'f', 'n', 'r', 't', 'v', '"', Char.ofNat 39, '&', '\\'].contains c

/-- Pattern `[][A-Z@^_]` modelling `[][` + uni.Lu + `@^_]` (control escapes). -/
def ctrlCls (c : Char) : Bool :=
  c == ']' || c == '[' || isLu c || c == '@' || c == '^' || c == '_'

/-- Pattern `[0-7]`. -/
def isOctD (c : Char) : Bool := '0' ≤ c && c ≤ '7'

/-- Pattern `[01]`. -/
def isBinD (c : Char) : Bool := c == '0' || c == '1'

/-- Pattern `[xX]`. -/
def isXx (c : Char) : Bool := c == 'x' || c == 'X'

/-- Pattern `[bB]`. -/
def isBb (c : Char) : Bool := c == 'b' || c == 'B'

/-- Pattern `[oO]`. -/
def isOo (c : Char) : Bool := c == 'o' || c == 'O'

/-- Pattern `[pP]`. -/
def isPp (c : Char) : Bool := c == 'p' || c == 'P'

/-- Pattern `[eE]`. -/
def isEe (c : Char) : Bool := c == 'e' || c == 'E'

/-- Pattern `[+-]`. -/
def isSign (c : Char) : Bool := c == '+' || c == '-'

/-- Pattern `_`. -/
def und : Regex := rlit "_"

/-- Pattern `(_*\d)*`. -/
def dTail : Regex := .star (.group (.cat (.star und) (.cls Char.isDigit)))

/-- Pattern `(_*[\da-fA-F])*`. -/
def hTail : Regex := .star (.group (.cat (.star und) (.cls isHexD)))

/-- Pattern `"[^"]+"`: a plain double-quoted string, used by the sourcelist string
rule, the sourcelist alias rule's first group and the `source ... from`
rule's path group. -/
def quoted : Regex := .cat (rlit "\"") (.cat (plus (.cls notDq)) (rlit "\""))

/-- Pattern `\bmodule\b` / `\bimport\b`. -/
def bword (s : String) : Regex := .cat .wordB (.cat (rlit s) .wordB)

/-- The sourcelist alias rule `("[^"]+")(\s+)(as)(\s+)([\w]+)`
(src/morloc.py lines 170-173). -/
def aliasRule : Rule :=
  ⟨gcat [quoted, plus (.cls isSpaceC), rlit "as", plus (.cls isSpaceC),
      plus (.cls isWordC)],
    .byGroups [.Str, .Whitespace, .Keyword, .Whitespace, .Name], []⟩

/-- The `root` state rules (src/morloc.py lines 55-140), in declaration
order. -/
def rootRules : List Rule := [
  ⟨rlit "where", .tok .KeywordReserved, []⟩,
  ⟨plus (.cls isSpaceC), .tok .Whitespace, []⟩,
  ⟨rcat [rlit "--", .star (.cls notNl), .eol], .tok .CommentSingle, []⟩,
  ⟨rlit "\x7b-", .tok .CommentMultiline, [.push .comment]⟩,
  ⟨bword "module", .tok .KeywordReserved, [.push .module]⟩,
  ⟨gcat [rlit "source", plus (.cls isSpaceC), plus (.cls Char.isAlpha),
      .star (.cls isSpaceC), rlit "("],
    .byGroups [.KeywordReserved, .Whitespace, .Name, .Whitespace, .Text],
    [.pushSame, .push .sourcelist]⟩,
  ⟨gcat [rlit "source", plus (.cls isSpaceC), plus (.cls Char.isAlpha),
      plus (.cls isSpaceC), rlit "from", plus (.cls isSpaceC), quoted,
      .star (.cls isSpaceC), rlit "("],
    .byGroups [.KeywordReserved, .Whitespace, .Name, .Whitespace,
      .KeywordReserved, .Whitespace, .Str, .Whitespace, .Text],
    [.pushSame, .push .sourcelist]⟩,
  ⟨gcat [rlit "type", plus (.cls isSpaceC),
      .cat (.cls Char.isUpper) (.star (.cls Char.isAlpha))],
    .byGroups [.KeywordReserved, .Whitespace, .Name], []⟩,
  ⟨.cat .bol (gcat [rlit "export", plus (.cls isSpaceC), .cls exportCls]),
    .byGroups [.KeywordReserved, .Whitespace, .Name], []⟩,
  ⟨gcat [bword "import", plus (.cls isSpaceC),
      .cat (.cls importHeadCls) (plus (.cls isWordC))],
    .byGroups [.KeywordReserved, .Whitespace, .Name], []⟩,
  ⟨gcat [bword "import", rlit "("],
    .byGroups [.KeywordReserved, .Punctuation], [.push .importList]⟩,
  ⟨gcat [.alt (rlit "object") (.alt (rlit "table") (rlit "record")),
      plus (.cls isSpaceC), .cat (.cls Char.isUpper) (plus (.cls isWordC)),
      .star (.cls isSpaceC), rlit "="],
    .byGroups [.KeywordReserved, .Whitespace, .Name, .Whitespace,
      .OperatorWord], []⟩,
  ⟨.cat (.cls isLl) (.star (.cls identTailCls)), .tok .Name, []⟩,
  ⟨.cat (.cls isLu) (.star (.cls identTailCls)), .tok .Name, []⟩,
  ⟨.cat (.group (.lit [Char.ofNat 39]))
      (rcat [rlit "[", .star (.cls notRBracket), rlit "]"]),
    .tok .KeywordType, []⟩,
  ⟨.cat (.group (.lit [Char.ofNat 39]))
      (rcat [rlit "(", .star (.cls notRParen), rlit ")"]),
    .tok .KeywordType, []⟩,
  ⟨.cat (.group (.lit [Char.ofNat 39])) (plus (.cls promotedOpCls)),
    .tok .KeywordType, []⟩,
  ⟨.group (.alt (rlit "<-") (.alt (rlit "::") (.alt (rlit "->")
      (.alt (rlit "=>") (.alt (rlit "=") (.alt (rlit ".")
      (.alt (rlit "\\") (rlit "@")))))))),
    .tok .OperatorWord, []⟩,
  ⟨rcat [rlit "0", .cls isXx, .star und, .cls isHexD, hTail, .star und,
      .cls isPp, opt (.cls isSign), .cls Char.isDigit, dTail],
    .tok .NumberFloat, []⟩,
  ⟨rcat [rlit "0", .cls isXx, .star und, .cls isHexD, hTail, rlit ".",
      .cls isHexD, hTail,
      opt (.group (rcat [.star und, .cls isPp, opt (.cls isSign),
        .cls Char.isDigit, dTail]))],
    .tok .NumberFloat, []⟩,
  ⟨rcat [.cls Char.isDigit, dTail, .star und, .cls isEe, opt (.cls isSign),
      .cls Char.isDigit, dTail],
    .tok .NumberFloat, []⟩,
  ⟨rcat [.cls Char.isDigit, dTail, rlit ".", .cls Char.isDigit, dTail,
      opt (.group (rcat [.star und, .cls isEe, opt (.cls isSign),
        .cls Char.isDigit, dTail]))],
    .tok .NumberFloat, []⟩,
  ⟨rcat [rlit "0", .cls isBb, .star und, .cls isBinD,
      .star (.group (.cat (.star und) (.cls isBinD)))],
    .tok .NumberBin, []⟩,
  ⟨rcat [rlit "0", .cls isOo, .star und, .cls isOctD,
      .star (.group (.cat (.star und) (.cls isOctD)))],
    .tok .NumberOct, []⟩,
  ⟨rcat [rlit "0", .cls isXx, .star und, .cls isHexD, hTail],
    .tok .NumberHex, []⟩,
  ⟨.cat (.cls Char.isDigit) dTail, .tok .NumberInteger, []⟩,
  ⟨rlit "\"", .tok .Str, [.push .string]⟩,
  ⟨rlit "[]", .tok .KeywordType, []⟩,
  ⟨rlit "()", .tok .NameBuiltin, []⟩,
  ⟨.cls punctCls, .tok .Punctuation, []⟩]

/-- The `comment` state rules (src/morloc.py lines 141-146). -/
def commentRules : List Rule := [
  ⟨.cls notCommentSpecial, .tok .CommentMultiline, []⟩,
  ⟨rlit "\x7b-", .tok .CommentMultiline, [.pushSame]⟩,
  ⟨rlit "-\x7d", .tok .CommentMultiline, [.pop]⟩,
  ⟨.cls commentSpecial, .tok .CommentMultiline, []⟩]

/-- The `module` state rules (src/morloc.py lines 147-150). -/
def moduleRules : List Rule := [
  ⟨plus (.cls isSpaceC), .tok .Whitespace, []⟩,
  ⟨.cat (.cls isLl) (.star (.cls moduleTailCls)), .tok .Name, [.pop]⟩]

/-- The `string` state rules (src/morloc.py lines 151-155). -/
def stringRules : List Rule := [
  ⟨plus (.cls (fun c => !(c == '\\' || c == '"'))), .tok .Str, []⟩,
  ⟨rlit "\\", .tok .StrEscape, [.push .escape]⟩,
  ⟨rlit "\"", .tok .Str, [.pop]⟩]

/-- The `escape` state rules (src/morloc.py lines 156-163). -/
def escapeRules : List Rule := [
  ⟨.cls escCharCls, .tok .StrEscape, [.pop]⟩,
  ⟨.cat (rlit "^") (.cls ctrlCls), .tok .StrEscape, [.pop]⟩,
  ⟨.cat (rlit "o") (plus (.cls isOctD)), .tok .StrEscape, [.pop]⟩,
  ⟨.cat (rlit "x") (plus (.cls isHexD)), .tok .StrEscape, [.pop]⟩,
  ⟨plus (.cls Char.isDigit), .tok .StrEscape, [.pop]⟩,
  ⟨gcat [plus (.cls isSpaceC), rlit "\\"],
    .byGroups [.Whitespace, .StrEscape], [.pop]⟩]

/-- The `sourcelist` state rules before the alias rule
(src/morloc.py lines 164-169). -/
def sourcelistCommon : List Rule := [
  ⟨plus (.cls isSpaceC), .tok .Whitespace, []⟩,
  ⟨rlit "(", .tok .Text, [.pushSame]⟩,
  ⟨rlit ")", .tok .Text, [.pop]⟩,
  ⟨quoted, .tok .Str, []⟩,
  ⟨rlit ",", .tok .Punctuation, []⟩]

/-- The full `sourcelist` state rules (src/morloc.py lines 164-174). -/
def sourcelistRules : List Rule := sourcelistCommon ++ [aliasRule]

/-- The `importList` state rules (src/morloc.py lines 175-181). -/
def importListRules : List Rule := [
  ⟨plus (.cls isSpaceC), .tok .Whitespace, []⟩,
  ⟨rlit "(", .tok .Text, [.pushSame]⟩,
  ⟨rlit ")", .tok .Text, [.pop]⟩,
  ⟨.cat (.cls Char.isAlpha) (.star (.cls isWordC)), .tok .Name, []⟩,
  ⟨rlit ",", .tok .Punctuation, []⟩]

/-- The rule table `MorlocLexer.tokens`, by state name. -/
def tokens : SName → List Rule
  | .root => rootRules
  | .comment => commentRules
  | .module => moduleRules
  | .string => stringRules
  | .escape => escapeRules
  | .sourcelist => sourcelistRules
  | .importList => importListRules

/-- The rule table with the (dead) sourcelist alias rule removed, used for
the refinement claim about it. -/
def tokensNoAlias : SName → List Rule
  | .sourcelist => sourcelistCommon
  | s => tokens s

/-- Modelled from the spec: the active state is the top of the state stack,
with `root` as the implicit floor. -/
def topState (stk : List SName) : SName := stk.headD .root

/-- Modelled from the spec: apply one transition directive to the state
stack; popping past the floor is a tolerated no-op. -/
def applyOp (stk : List SName) : StackOp → List SName
  | .push s => s :: stk
  | .pushSame =>
    match stk with
    | [] => []
    | t :: r => t :: t :: r
  | .pop =>
    match stk with
    | [] => []
    | [t] => [t]
    | _ :: t :: r => t :: r

/-- Modelled from the spec: `bygroups` emission — one span per capture
group, in pattern order, skipping groups that matched the empty string. -/
def emitGroups : List (Nat × Nat) → List Tok → List Span
  | (s, e) :: cs, t :: ts =>
    if s = e then emitGroups cs ts else ⟨s, e, t⟩ :: emitGroups cs ts
  | _, _ => []

/-- Modelled from the spec: the spans a matched rule emits over
`[pos, stop)`. -/
def emit (pos stop : Nat) (caps : List (Nat × Nat)) : Action → List Span
  | .tok t => [⟨pos, stop, t⟩]
  | .byGroups ts => emitGroups caps ts

/-- Modelled from the spec: scan the active state's rules in declaration
order and take the first whose pattern matches at the cursor. -/
def findMatch (text : List Char) : List Rule → Nat → Option (Rule × Nat × List (Nat × Nat))
  | [], _ => none
  | ru :: rs, pos =>
    match pyMatch text ru.pattern pos with
    | some (m, caps) => some (ru, m, caps)
    | none => findMatch text rs pos

/-- Modelled from the spec: one iteration of the driver loop — emit the
first matching rule's spans, advance the cursor to the match end and apply
the rule's transitions; when no rule matches, emit a one-character Error
span, advance by one and leave the stack unchanged. -/
def step (tbl : SName → List Rule) (text : List Char) (pos : Nat)
    (stk : List SName) : List Span × Nat × List SName :=
  match findMatch text (tbl (topState stk)) pos with
  | some (ru, m, caps) => (emit pos m caps ru.action, m, ru.trans.foldl applyOp stk)
  | none => ([⟨pos, pos + 1, .Error⟩], pos + 1, stk)

/-- Modelled from the spec: the driver loop, `fuel` bounding the number of
iterations (progress makes `text.length` iterations always sufficient). -/
def tokenizeAux (tbl : SName → List Rule) (text : List Char) :
    Nat → Nat → List SName → List Span
  | 0, _, _ => []
  | fuel + 1, pos, stk =>
    if pos < text.length then
      let r := step tbl text pos stk
      r.1 ++ tokenizeAux tbl text fuel r.2.1 r.2.2
    else []

/-- Modelled from the spec: tokenize an input with a given rule table,
starting at cursor 0 in state `root`. -/
def tokenizeWith (tbl : SName → List Rule) (text : List Char) : List Span :=
  tokenizeAux tbl text text.length 0 [.root]

/-- The tokenizer of `MorlocLexer`. -/
def tokenize (text : List Char) : List Span := tokenizeWith tokens text

/-- Convenience wrapper on string literals. -/
def tokenizeStr (s : String) : List Span := tokenize s.data

/-- The cursor and state stack after `n` driver iterations. -/
def posStackAfter (text : List Char) : Nat → Nat × List SName
  | 0 => (0, [.root])
  | n + 1 =>
    let r := posStackAfter text n
    if r.1 < text.length then
      let s := step tokens text r.1 r.2
      (s.2.1, s.2.2)
    else r

/-- Can the pattern match the empty string?  (Anchors are zero-width, so
they count as nullable.)  Every rule pattern of the table is non-nullable,
which is what makes the driver strictly advance. -/
def nullable : Regex → Bool
  | .eps => true
  | .cls _ => false
  | .lit s => s.isEmpty
  | .cat a b => nullable a && nullable b
  | .alt a b => nullable a || nullable b
  | .star _ => true
  | .group r => nullable r
  | .bol => true
  | .eol => true
  | .wordB => true

/-- The pattern contains no capture group. -/
def noGroups : Regex → Bool
  | .group _ => false
  | .cat a b => noGroups a && noGroups b
  | .alt a b => noGroups a && noGroups b
  | .star r => noGroups r
  | .eps | .cls _ | .lit _ | .bol | .eol | .wordB => true

/-- The pattern is a plain sequence of `n` capture groups (optionally after
a `^` anchor), each group-free inside — the shape of every `bygroups`
pattern of the table. -/
def gshape : Regex → Nat → Bool
  | .eps, n => n == 0
  | .cat .bol rest, n => gshape rest n
  | .cat (.group r) rest, n + 1 => noGroups r && gshape rest n
  | _, _ => false

/-- The capture list is a gap-free chain from `a` to `b`. -/
def capsChain : Nat → Nat → List (Nat × Nat) → Prop
  | a, b, [] => a = b
  | a, b, (s, e) :: rest => s = a ∧ a ≤ e ∧ capsChain e b rest

/-- The span list is a contiguous, non-overlapping cover of `[a, b)`:
each span starts where the previous one stopped, the first at `a`, the
last stopping at `b`. -/
def tiles : List Span → Nat → Nat → Prop
  | [], a, b => a = b
  | sp :: rest, a, b => sp.start = a ∧ a ≤ sp.stop ∧ tiles rest sp.stop b

/-- The text a span covers. -/
def spanText (text : List Char) (sp : Span) : List Char :=
  (text.drop sp.start).take (sp.stop - sp.start)

/-- A rule's `bygroups` token list is aligned with its pattern's capture
groups. -/
def ruleOK (ru : Rule) : Bool :=
  match ru.action with
  | .tok _ => true
  | .byGroups ts => gshape ru.pattern ts.length

/-- Well-formedness of a rule table: aligned `bygroups` rules and
non-nullable patterns throughout. -/
def goodTable (tbl : SName → List Rule) : Prop :=
  ∀ s : SName, ∀ ru ∈ tbl s, ruleOK ru = true ∧ nullable ru.pattern = false

theorem head?_mem {α : Type} {l : List α} {x : α} (h : l.head? = some x) :
    x ∈ l := by
  cases l with
  | nil => simp at h
  | cons a t => simp_all [List.head?]

/-- Every candidate match ends at or after the start position. -/
theorem mat_lower {text : List Char} :
    ∀ (fuel : Nat) (r : Regex) (pos : Nat) (res : Nat × List (Nat × Nat)),
      res ∈ mat text fuel r pos → pos ≤ res.1 := by
  intro fuel
  induction fuel with
  | zero => intro r pos res h; simp [mat] at h
  | succ f ih =>
    intro r pos res h
    cases r with
    | eps => simp [mat] at h; simp [h]
    | cls p =>
      simp only [mat] at h
      cases hg : text[pos]? with
      | none => simp [hg] at h
      | some c =>
        simp only [hg] at h
        by_cases hc : p c
        · simp [hc] at h; simp [h]
        · simp [hc] at h
    | lit s =>
      simp only [mat] at h
      by_cases hp : s.isPrefixOf (text.drop pos) <;> simp [hp] at h
      simp [h]
    | cat a b =>
      simp only [mat, List.mem_flatMap, List.mem_map] at h
      obtain ⟨q, hq, q2, hq2, rfl⟩ := h
      exact le_trans (ih a pos q hq) (ih b q.1 q2 hq2)
    | alt a b =>
      simp only [mat, List.mem_append] at h
      rcases h with h | h
      · exact ih a pos res h
      · exact ih b pos res h
    | star r0 =>
      simp only [mat, List.mem_append, List.mem_flatMap, List.mem_filter,
        List.mem_map] at h
      rcases h with ⟨q, ⟨hq, hlt⟩, q2, hq2, rfl⟩ | h
      · have := ih (.star r0) q.1 q2 hq2
        simp at hlt
        omega
      · simp at h; simp [h]
    | group r0 =>
      simp only [mat, List.mem_map] at h
      obtain ⟨q, hq, rfl⟩ := h
      exact ih r0 pos q hq
    | bol =>
      simp only [mat] at h
      split at h <;> simp at h
      simp [h]
    | eol =>
      simp only [mat] at h
      split at h <;> simp at h
      simp [h]
    | wordB =>
      simp only [mat] at h
      split at h <;> simp at h
      simp [h]

/-- Matches never run past the end of the input. -/
theorem mat_upper {text : List Char} :
    ∀ (fuel : Nat) (r : Regex) (pos : Nat) (res : Nat × List (Nat × Nat)),
      pos ≤ text.length → res ∈ mat text fuel r pos → res.1 ≤ text.length := by
  intro fuel
  induction fuel with
  | zero => intro r pos res _ h; simp [mat] at h
  | succ f ih =>
    intro r pos res hpos h
    cases r with
    | eps => simp [mat] at h; simp [h, hpos]
    | cls p =>
      simp only [mat] at h
      cases hg : text[pos]? with
      | none => simp [hg] at h
      | some c =>
        have hlt : pos < text.length := by
          by_contra hge
          rw [List.getElem?_eq_none (by omega)] at hg
          exact Option.noConfusion hg
        simp only [hg] at h
        by_cases hc : p c <;> simp [hc] at h
        simp [h]; omega
    | lit sl =>
      simp only [mat] at h
      by_cases hp : sl.isPrefixOf (text.drop pos) <;> simp [hp] at h
      have hlen := ( List.isPrefixOf_iff_prefix.mp hp).length_le
      simp [List.length_drop] at hlen
      simp [h]; omega
    | cat a b =>
      simp only [mat, List.mem_flatMap, List.mem_map] at h
      obtain ⟨q, hq, q2, hq2, rfl⟩ := h
      have h1 := ih a pos q hpos hq
      exact ih b q.1 q2 h1 hq2
    | alt a b =>
      simp only [mat, List.mem_append] at h
      rcases h with h | h
      · exact ih a pos res hpos h
      · exact ih b pos res hpos h
    | star r0 =>
      simp only [mat, List.mem_append, List.mem_flatMap, List.mem_filter,
        List.mem_map] at h
      rcases h with ⟨q, ⟨hq, _⟩, q2, hq2, rfl⟩ | h
      · have h1 := ih r0 pos q hpos hq
        exact ih (.star r0) q.1 q2 h1 hq2
      · simp at h; simp [h, hpos]
    | group r0 =>
      simp only [mat, List.mem_map] at h
      obtain ⟨q, hq, rfl⟩ := h
      exact ih r0 pos q hpos hq
    | bol =>
      simp only [mat] at h
      split at h <;> simp at h
      simp [h, hpos]
    | eol =>
      simp only [mat] at h
      split at h <;> simp at h
      simp [h, hpos]
    | wordB =>
      simp only [mat] at h
      split at h <;> simp at h
      simp [h, hpos]

/-- A non-nullable pattern consumes at least one character: the key progress
fact behind termination and coverage. -/
theorem mat_progress {text : List Char} :
    ∀ (fuel : Nat) (r : Regex) (pos : Nat) (res : Nat × List (Nat × Nat)),
      nullable r = false → res ∈ mat text fuel r pos → pos < res.1 := by
  intro fuel
  induction fuel with
  | zero => intro r pos res _ h; simp [mat] at h
  | succ f ih =>
    intro r pos res hn h
    cases r with
    | eps => simp [nullable] at hn
    | cls p =>
      simp only [mat] at h
      cases hg : text[pos]? with
      | none => simp [hg] at h
      | some c =>
        simp only [hg] at h
        by_cases hc : p c <;> simp [hc] at h
        simp [h]
    | lit sl =>
      simp only [nullable] at hn
      simp only [mat] at h
      by_cases hp : sl.isPrefixOf (text.drop pos) <;> simp [hp] at h
      have : 0 < sl.length := by
        cases sl with
        | nil => simp at hn
        | cons c t => simp
      simp [h]; omega
    | cat a b =>
      simp only [nullable, Bool.and_eq_false_iff] at hn
      simp only [mat, List.mem_flatMap, List.mem_map] at h
      obtain ⟨q, hq, q2, hq2, rfl⟩ := h
      rcases hn with hn | hn
      · have h1 := ih a pos q hn hq
        have h2 := mat_lower f b q.1 q2 hq2
        omega
      · have h1 := mat_lower f a pos q hq
        have h2 := ih b q.1 q2 hn hq2
        omega
    | alt a b =>
      simp only [nullable, Bool.or_eq_false_iff] at hn
      simp only [mat, List.mem_append] at h
      rcases h with h | h
      · exact ih a pos res hn.1 h
      · exact ih b pos res hn.2 h
    | star r0 => simp [nullable] at hn
    | group r0 =>
      simp only [nullable] at hn
      simp only [mat, List.mem_map] at h
      obtain ⟨q, hq, rfl⟩ := h
      exact ih r0 pos q hn hq
    | bol => simp [nullable] at hn
    | eol => simp [nullable] at hn
    | wordB => simp [nullable] at hn

/-- Group-free patterns produce no captures. -/
theorem mat_nogroups {text : List Char} :
    ∀ (fuel : Nat) (r : Regex) (pos : Nat) (res : Nat × List (Nat × Nat)),
      noGroups r = true → res ∈ mat text fuel r pos → res.2 = [] := by
  intro fuel
  induction fuel with
  | zero => intro r pos res _ h; simp [mat] at h
  | succ f ih =>
    intro r pos res hg h
    cases r with
    | eps => simp [mat] at h; simp [h]
    | cls p =>
      simp only [mat] at h
      cases hgc : text[pos]? with
      | none => simp [hgc] at h
      | some c =>
        simp only [hgc] at h
        by_cases hc : p c <;> simp [hc] at h
        simp [h]
    | lit sl =>
      simp only [mat] at h
      by_cases hp : sl.isPrefixOf (text.drop pos) <;> simp [hp] at h
      simp [h]
    | cat a b =>
      simp only [noGroups, Bool.and_eq_true] at hg
      simp only [mat, List.mem_flatMap, List.mem_map] at h
      obtain ⟨q, hq, q2, hq2, rfl⟩ := h
      simp [ih a pos q hg.1 hq, ih b q.1 q2 hg.2 hq2]
    | alt a b =>
      simp only [noGroups, Bool.and_eq_true] at hg
      simp only [mat, List.mem_append] at h
      rcases h with h | h
      · exact ih a pos res hg.1 h
      · exact ih b pos res hg.2 h
    | star r0 =>
      simp only [noGroups] at hg
      simp only [mat, List.mem_append, List.mem_flatMap, List.mem_filter,
        List.mem_map] at h
      rcases h with ⟨q, ⟨hq, _⟩, q2, hq2, rfl⟩ | h
      · have h2 := ih (.star r0) q.1 q2 (by simp [noGroups, hg]) hq2
        simp [ih r0 pos q hg hq, h2]
      · simp at h; simp [h]
    | group r0 => simp [noGroups] at hg
    | bol =>
      simp only [mat] at h
      split at h <;> simp at h
      simp [h]
    | eol =>
      simp only [mat] at h
      split at h <;> simp at h
      simp [h]
    | wordB =>
      simp only [mat] at h
      split at h <;> simp at h
      simp [h]

/-- Raising the fuel preserves every candidate match. -/
theorem mat_mono {text : List Char} :
    ∀ (f f' : Nat), f ≤ f' →
      ∀ (r : Regex) (pos : Nat) (res : Nat × List (Nat × Nat)),
        res ∈ mat text f r pos → res ∈ mat text f' r pos := by
  intro f
  induction f with
  | zero => intro f' _ r pos res h; simp [mat] at h
  | succ f ih =>
    intro f' hle r pos res h
    obtain ⟨f2, rfl⟩ : ∃ f2, f' = f2 + 1 := ⟨f' - 1, by omega⟩
    have hf2 : f ≤ f2 := by omega
    cases r with
    | eps => simpa [mat] using h
    | cls p => simpa [mat] using h
    | lit sl => simpa [mat] using h
    | cat a b =>
      simp only [mat, List.mem_flatMap, List.mem_map] at h ⊢
      obtain ⟨q, hq, q2, hq2, rfl⟩ := h
      exact ⟨q, ih f2 hf2 a pos q hq, q2, ih f2 hf2 b q.1 q2 hq2, rfl⟩
    | alt a b =>
      simp only [mat, List.mem_append] at h ⊢
      rcases h with h | h
      · exact Or.inl (ih f2 hf2 a pos res h)
      · exact Or.inr (ih f2 hf2 b pos res h)
    | star r0 =>
      simp only [mat, List.mem_append, List.mem_flatMap, List.mem_filter,
        List.mem_map] at h ⊢
      rcases h with ⟨q, ⟨hq, hlt⟩, q2, hq2, rfl⟩ | h
      · exact Or.inl ⟨q, ⟨ih f2 hf2 r0 pos q hq, hlt⟩,
          q2, ih f2 hf2 (.star r0) q.1 q2 hq2, rfl⟩
      · exact Or.inr h
    | group r0 =>
      simp only [mat, List.mem_map] at h ⊢
      obtain ⟨q, hq, rfl⟩ := h
      exact ⟨q, ih f2 hf2 r0 pos q hq, rfl⟩
    | bol => simpa [mat] using h
    | eol => simpa [mat] using h
    | wordB => simpa [mat] using h

/-- Membership in an anchor match is the trivial zero-width result. -/
theorem mat_bol_mem {text : List Char} {fuel pos : Nat}
    {q : Nat × List (Nat × Nat)} (h : q ∈ mat text fuel .bol pos) :
    q = (pos, []) := by
  cases fuel with
  | zero => simp [mat] at h
  | succ f =>
    simp only [mat] at h
    split at h <;> simp at h
    simp [h, Prod.ext_iff]

/-- Matches of a `bygroups`-shaped pattern produce exactly one capture per
group, chained gap-free from the match start to the match end. -/
theorem mat_gshape {text : List Char} :
    ∀ (r : Regex) (n : Nat) (fuel : Nat) (pos : Nat)
      (res : Nat × List (Nat × Nat)),
      gshape r n = true → res ∈ mat text fuel r pos →
      capsChain pos res.1 res.2 ∧ res.2.length = n := by
  intro r
  induction r with
  | eps =>
    intro n fuel pos res hg h
    cases fuel with
    | zero => simp [mat] at h
    | succ f =>
      simp [mat] at h
      simp only [gshape, beq_iff_eq] at hg
      subst hg
      simp [h, capsChain]
  | cls p => intro n fuel pos res hg h; simp [gshape] at hg
  | lit sl => intro n fuel pos res hg h; simp [gshape] at hg
  | cat a b iha ihb =>
    intro n fuel pos res hg h
    cases fuel with
    | zero => simp [mat] at h
    | succ f =>
      simp only [mat, List.mem_flatMap, List.mem_map] at h
      obtain ⟨q, hq, q2, hq2, rfl⟩ := h
      cases a with
      | bol =>
        have hq' := mat_bol_mem hq
        subst hq'
        simp only [gshape] at hg
        have := ihb n f pos q2 hg hq2
        simpa using this
      | group r0 =>
        cases n with
        | zero => simp [gshape] at hg
        | succ n0 =>
          simp only [gshape, Bool.and_eq_true] at hg
          cases f with
          | zero => simp [mat] at hq
          | succ f2 =>
            simp only [mat, List.mem_map] at hq
            obtain ⟨p, hp, rfl⟩ := hq
            have hpc := mat_nogroups f2 r0 pos p hg.1 hp
            have hpl := mat_lower f2 r0 pos p hp
            have hb := ihb n0 (f2 + 1) p.1 q2 hg.2 hq2
            refine ⟨?_, by simp [hpc, hb.2]⟩
            simp only [hpc, List.nil_append]
            exact ⟨rfl, hpl, hb.1⟩
      | eps => simp [gshape] at hg
      | cls p0 => simp [gshape] at hg
      | lit sl => simp [gshape] at hg
      | cat a0 b0 => simp [gshape] at hg
      | alt a0 b0 => simp [gshape] at hg
      | star r0 => simp [gshape] at hg
      | eol => simp [gshape] at hg
      | wordB => simp [gshape] at hg
  | alt a b iha ihb => intro n fuel pos res hg h; simp [gshape] at hg
  | star r0 ihr => intro n fuel pos res hg h; simp [gshape] at hg
  | group r0 ihr => intro n fuel pos res hg h; simp [gshape] at hg
  | bol => intro n fuel pos res hg h; simp [gshape] at hg
  | eol => intro n fuel pos res hg h; simp [gshape] at hg
  | wordB => intro n fuel pos res hg h; simp [gshape] at hg

/-- A gap-free capture chain emits a tiling span list (empty groups are
skipped without breaking contiguity). -/
theorem emitGroups_tiles :
    ∀ (caps : List (Nat × Nat)) (ts : List Tok) (a b : Nat),
      capsChain a b caps → caps.length = ts.length →
      tiles (emitGroups caps ts) a b := by
  intro caps
  induction caps with
  | nil =>
    intro ts a b hc _
    simp [capsChain] at hc
    simp [emitGroups, tiles, hc]
  | cons c cs ih =>
    intro ts a b hc hl
    obtain ⟨sx, ex⟩ := c
    cases ts with
    | nil => simp at hl
    | cons t ts' =>
      simp only [capsChain] at hc
      obtain ⟨rfl, hle, hrest⟩ := hc
      simp only [emitGroups]
      by_cases he : sx = ex
      · subst he
        simp only [if_pos rfl]
        exact ih ts' sx b hrest (by simpa using hl)
      · simp only [if_neg he]
        exact ⟨rfl, hle, ih ts' ex b hrest (by simpa using hl)⟩

/-- Tilings concatenate. -/
theorem tiles_append :
    ∀ (xs ys : List Span) (a m b : Nat),
      tiles xs a m → tiles ys m b → tiles (xs ++ ys) a b := by
  intro xs
  induction xs with
  | nil =>
    intro ys a m b hx hy
    simp [tiles] at hx
    simpa [hx] using hy
  | cons sp rest ih =>
    intro ys a m b hx hy
    obtain ⟨h1, h2, h3⟩ := hx
    exact ⟨h1, h2, ih ys sp.stop m b h3 hy⟩

/-- A tiling's endpoints are ordered. -/
theorem tiles_le : ∀ (sps : List Span) (a b : Nat), tiles sps a b → a ≤ b := by
  intro sps
  induction sps with
  | nil => intro a b h; simp [tiles] at h; omega
  | cons sp rest ih =>
    intro a b h
    obtain ⟨h1, h2, h3⟩ := h
    have := ih sp.stop b h3
    omega

/-- The concatenated text of a tiling of `[a, b)` is exactly that slice of
the input. -/
theorem tiles_text {text : List Char} :
    ∀ (sps : List Span) (a b : Nat), tiles sps a b → b ≤ text.length →
      sps.flatMap (spanText text) = (text.drop a).take (b - a) := by
  intro sps
  induction sps with
  | nil =>
    intro a b h _
    simp [tiles] at h
    simp [h]
  | cons sp rest ih =>
    intro a b h hb
    obtain ⟨h1, h2, h3⟩ := h
    have hstop := tiles_le rest sp.stop b h3
    simp only [List.flatMap_cons, ih sp.stop b h3 hb]
    rw [spanText, h1]
    have hsplit : b - a = (sp.stop - a) + (b - sp.stop) := by omega
    have h4 : (text.drop a).drop (sp.stop - a) = text.drop sp.stop := by
      rw [List.drop_drop]
      congr 1
      omega
    rw [hsplit, List.take_add, h4]
  
/-- Inversion of the first-match scan: a hit names a rule of the list
together with its match. -/
theorem findMatch_some {text : List Char} :
    ∀ (rules : List Rule) (pos : Nat) (ru : Rule) (m : Nat)
      (caps : List (Nat × Nat)),
      findMatch text rules pos = some (ru, m, caps) →
      ru ∈ rules ∧ pyMatch text ru.pattern pos = some (m, caps) := by
  intro rules
  induction rules with
  | nil => intro pos ru m caps h; simp [findMatch] at h
  | cons r rs ih =>
    intro pos ru m caps h
    simp only [findMatch] at h
    cases hp : pyMatch text r.pattern pos with
    | none =>
      rw [hp] at h
      have := ih pos ru m caps h
      exact ⟨List.mem_cons_of_mem _ this.1, this.2⟩
    | some q =>
      obtain ⟨m0, caps0⟩ := q
      rw [hp] at h
      simp at h
      obtain ⟨rfl, rfl, rfl⟩ := h
      exact ⟨List.mem_cons_self _ _, hp⟩

/-- When the scan misses, every rule of the list missed. -/
theorem findMatch_none {text : List Char} :
    ∀ (rules : List Rule) (pos : Nat),
      findMatch text rules pos = none →
      ∀ ru ∈ rules, pyMatch text ru.pattern pos = none := by
  intro rules
  induction rules with
  | nil => intro pos _ ru hru; simp at hru
  | cons r rs ih =>
    intro pos h ru hru
    simp only [findMatch] at h
    cases hp : pyMatch text r.pattern pos with
    | some q => rw [hp] at h; simp at h
    | none =>
      rw [hp] at h
      rcases List.mem_cons.mp hru with rfl | hmem
      · exact hp
      · exact ih pos h ru hmem

/-- A last rule that can only match when an earlier rule matches is dead:
dropping it never changes the scan. -/
theorem findMatch_snoc_none {text : List Char} :
    ∀ (l : List Rule) (a : Rule) (pos : Nat),
      (findMatch text l pos = none → pyMatch text a.pattern pos = none) →
      findMatch text (l ++ [a]) pos = findMatch text l pos := by
  intro l
  induction l with
  | nil =>
    intro a pos himp
    simp only [List.nil_append, findMatch]
    rw [himp (by simp [findMatch])]
  | cons r rs ih =>
    intro a pos himp
    simp only [List.cons_append, findMatch]
    cases hp : pyMatch text r.pattern pos with
    | some q => rfl
    | none =>
      exact ih a pos fun hn => himp (by simp only [findMatch, hp]; exact hn)

theorem ne_nil_head? {α : Type} {l : List α} (h : l ≠ []) :
    ∃ x, l.head? = some x := by
  cases l with
  | nil => exact absurd rfl h
  | cons a t => exact ⟨a, rfl⟩

/-- The table is well-formed: every `bygroups` rule is aligned with its
pattern's groups, and no pattern matches the empty string. -/
theorem tokens_good : goodTable tokens := by
  have h : ∀ s : SName,
      (tokens s).all (fun ru => ruleOK ru && !(nullable ru.pattern)) = true := by
    intro s
    cases s <;> decide
  intro s ru hru
  have := List.all_eq_true.mp (h s) ru hru
  simp only [Bool.and_eq_true, Bool.not_eq_true'] at this
  exact this

/-- The table without the sourcelist alias rule is also well-formed. -/
theorem tokensNoAlias_good : goodTable tokensNoAlias := by
  have h : ∀ s : SName,
      (tokensNoAlias s).all (fun ru => ruleOK ru && !(nullable ru.pattern)) = true := by
    intro s
    cases s <;> decide
  intro s ru hru
  have := List.all_eq_true.mp (h s) ru hru
  simp only [Bool.and_eq_true, Bool.not_eq_true'] at this
  exact this

/-- One driver iteration emits a tiling of the cursor advance, strictly
advances, and stays within the input. -/
theorem step_sound {tbl : SName → List Rule} (hgood : goodTable tbl)
    (text : List Char) (pos : Nat) (stk : List SName)
    (hpos : pos < text.length) :
    tiles (step tbl text pos stk).1 pos (step tbl text pos stk).2.1 ∧
      pos < (step tbl text pos stk).2.1 ∧
      (step tbl text pos stk).2.1 ≤ text.length := by
  cases hfm : findMatch text (tbl (topState stk)) pos with
  | none =>
    simp only [step, hfm]
    refine ⟨⟨rfl, Nat.le_succ _, rfl⟩, Nat.lt_succ_self _, ?_⟩
    show pos + 1 ≤ text.length
    omega
  | some q =>
    obtain ⟨ru, m, caps⟩ := q
    obtain ⟨hmem, hpy⟩ := findMatch_some _ pos ru m caps hfm
    obtain ⟨hok, hnul⟩ := hgood (topState stk) ru hmem
    have hmm : (m, caps) ∈ mat text (bigFuel text) ru.pattern pos :=
      head?_mem hpy
    have hlow : pos < m := mat_progress _ _ _ _ hnul hmm
    have hup : m ≤ text.length := mat_upper _ _ _ _ (by omega) hmm
    simp only [step, hfm]
    refine ⟨?_, hlow, hup⟩
    cases hact : ru.action with
    | tok t => simp only [emit]; exact ⟨rfl, Nat.le_of_lt hlow, rfl⟩
    | byGroups ts =>
      simp only [emit]
      have hsh : gshape ru.pattern ts.length = true := by
        have := hok
        rw [ruleOK, hact] at this
        exact this
      have := mat_gshape ru.pattern ts.length (bigFuel text) pos (m, caps) hsh hmm
      exact emitGroups_tiles caps ts pos m this.1 this.2

/-- Past the end of the input the driver is done. -/
theorem tokenizeAux_end {tbl : SName → List Rule} {text : List Char} :
    ∀ (fuel pos : Nat) (stk : List SName), ¬ pos < text.length →
      tokenizeAux tbl text fuel pos stk = [] := by
  intro fuel
  cases fuel <;> intro pos stk h <;> simp [tokenizeAux, h]

/-- With enough fuel, the driver's output tiles the whole remaining
input. -/
theorem tokenizeAux_tiles {tbl : SName → List Rule} (hgood : goodTable tbl)
    (text : List Char) :
    ∀ (fuel pos : Nat) (stk : List SName), pos ≤ text.length →
      text.length - pos ≤ fuel →
      tiles (tokenizeAux tbl text fuel pos stk) pos text.length := by
  intro fuel
  induction fuel with
  | zero =>
    intro pos stk h1 h2
    have : pos = text.length := by omega
    simp [tokenizeAux, tiles, this]
  | succ f ih =>
    intro pos stk h1 h2
    by_cases hp : pos < text.length
    · simp only [tokenizeAux, if_pos hp]
      obtain ⟨ht, hprog, hup⟩ := step_sound hgood text pos stk hp
      exact tiles_append _ _ _ _ _ ht
        (ih (step tbl text pos stk).2.1 (step tbl text pos stk).2.2 hup
          (by omega))
    · simp only [tokenizeAux, if_neg hp]
      have : pos = text.length := by omega
      simp [tiles, this]

/-- Any two sufficient fuels give the same output: `text.length` driver
iterations always complete the scan. -/
theorem tokenizeAux_fuel {tbl : SName → List Rule} (hgood : goodTable tbl)
    (text : List Char) :
    ∀ (fuel fuel' pos : Nat) (stk : List SName),
      text.length - pos ≤ fuel → text.length - pos ≤ fuel' →
      tokenizeAux tbl text fuel pos stk = tokenizeAux tbl text fuel' pos stk := by
  intro fuel
  induction fuel with
  | zero =>
    intro fuel' pos stk h1 h2
    have hp : ¬ pos < text.length := by omega
    rw [tokenizeAux_end _ _ _ hp, tokenizeAux_end _ _ _ hp]
  | succ f ih =>
    intro fuel' pos stk h1 h2
    by_cases hp : pos < text.length
    · obtain ⟨f2, rfl⟩ : ∃ f2, fuel' = f2 + 1 := ⟨fuel' - 1, by omega⟩
      simp only [tokenizeAux, if_pos hp]
      obtain ⟨_, hprog, hup⟩ := step_sound hgood text pos stk hp
      rw [ih f2 (step tbl text pos stk).2.1 (step tbl text pos stk).2.2
        (by omega) (by omega)]
    · rw [tokenizeAux_end _ _ _ hp, tokenizeAux_end _ _ _ hp]

/-- The token list an action can emit. -/
def actionToks : Action → List Tok
  | .tok t => [t]
  | .byGroups ts => ts

/-- C1: for every input, the spans produced by `tokenize` are contiguous
(each starts where the previous one stopped), non-overlapping, the first
starts at offset 0 and the last stops at the input's end, and the
concatenation of the span texts in emission order is exactly the input. -/
theorem C1_coverage (text : List Char) :
    tiles (tokenize text) 0 text.length ∧
      (tokenize text).flatMap (spanText text) = text := by
  have ht : tiles (tokenize text) 0 text.length :=
    tokenizeAux_tiles tokens_good text text.length 0 [.root] (by omega)
      (by omega)
  refine ⟨ht, ?_⟩
  have := @tiles_text text (tokenize text) 0 text.length ht
    (le_refl _)
  simpa using this

/-- C4: every driver iteration strictly advances the cursor, so
`text.length` iterations always complete the scan — granting any extra
fuel beyond `text.length` never changes the output. -/
theorem C4_progress_termination :
    (∀ (text : List Char) (pos : Nat) (stk : List SName),
       pos < text.length → pos < (step tokens text pos stk).2.1)
  ∧ (∀ (text : List Char) (extra : Nat),
       tokenizeAux tokens text (text.length + extra) 0 [.root] =
         tokenize text) := by
  constructor
  · intro text pos stk hpos
    exact (step_sound tokens_good text pos stk hpos).2.1
  · intro text extra
    show tokenizeAux tokens text (text.length + extra) 0 [.root] =
      tokenizeAux tokens text text.length 0 [.root]
    exact tokenizeAux_fuel tokens_good text _ _ 0 [.root] (by omega) (by omega)

theorem C4_witness : 0 < (step tokens ("a".data) 0 [SName.root]).2.1 :=
  C4_progress_termination.1 "a".data 0 [SName.root] (by decide)

/-- C2: whenever no rule of the active state matches at the cursor, the
driver emits exactly one Error span covering the single character at the
cursor, advances the cursor by one and leaves the state stack unchanged;
and this fallback is the only source of Error spans — no rule's action
mentions the Error category.  (The driver is a total function, so the scan
never aborts and no exception is surfaced.) -/
theorem C2_error_fallback :
    (∀ (text : List Char) (pos : Nat) (stk : List SName),
       pos < text.length →
       findMatch text (tokens (topState stk)) pos = none →
       step tokens text pos stk = ([⟨pos, pos + 1, Tok.Error⟩], pos + 1, stk))
  ∧ (∀ s : SName, ∀ ru ∈ tokens s,
       (actionToks ru.action).all (fun t => !decide (t = Tok.Error)) = true) := by
  constructor
  · intro text pos stk _ hfm
    simp [step, hfm]
  · have h : ∀ s : SName, (tokens s).all
        (fun ru => (actionToks ru.action).all
          (fun t => !decide (t = Tok.Error))) = true := by
      intro s
      cases s <;> decide
    intro s ru hru
    exact List.all_eq_true.mp (h s) ru hru

theorem C2_witness :
    step tokens ("#".data) 0 [SName.root] =
      ([⟨0, 1, Tok.Error⟩], 1, [SName.root]) :=
  C2_error_fallback.1 "#".data 0 [SName.root] (by decide) rfl

/-- C3: when several rules of the active state match at a position, the
driver takes the first in declaration order (never a longer later match):
a scan hit on `pre ++ ru :: post` where nothing in `pre` matches is decided
by `ru` alone; concretely, `whereas` is split as the bare `where` keyword
rule (declared first in `root`) followed by a Name, even though the
lowercase-identifier rule would match the full seven characters. -/
theorem C3_first_match_wins :
    (∀ (text : List Char) (pre post : List Rule) (ru : Rule) (pos m : Nat)
       (caps : List (Nat × Nat)),
       (∀ r2 ∈ pre, pyMatch text r2.pattern pos = none) →
       pyMatch text ru.pattern pos = some (m, caps) →
       findMatch text (pre ++ ru :: post) pos = some (ru, m, caps))
  ∧ tokenizeStr "whereas" =
      [⟨0, 5, Tok.KeywordReserved⟩, ⟨5, 7, Tok.Name⟩] := by
  constructor
  · intro text pre post ru pos m caps hpre hru
    induction pre with
    | nil => simp [findMatch, hru]
    | cons r rs ih =>
      simp only [List.cons_append, findMatch]
      rw [hpre r (List.mem_cons_self r rs)]
      exact ih fun r2 h2 => hpre r2 (List.mem_cons_of_mem _ h2)
  · decide

theorem C3_witness :
    findMatch ("where".data)
      ([(⟨plus (.cls isSpaceC), .tok .Whitespace, []⟩ : Rule)] ++
        (⟨rlit "where", .tok .KeywordReserved, []⟩ : Rule) :: []) 0 =
      some (⟨rlit "where", .tok .KeywordReserved, []⟩, 5, []) :=
  C3_first_match_wins.1 "where".data
    [⟨plus (.cls isSpaceC), .tok .Whitespace, []⟩] []
    ⟨rlit "where", .tok .KeywordReserved, []⟩ 0 5 []
    (by
      intro r2 h2
      simp at h2
      subst h2
      decide)
    (by decide)

theorem mem_mat_cat {text : List Char} {fuel : Nat} {a b : Regex}
    {pos : Nat} {res : Nat × List (Nat × Nat)}
    (h : res ∈ mat text fuel (.cat a b) pos) :
    ∃ f2, fuel = f2 + 1 ∧
      ∃ q ∈ mat text f2 a pos, ∃ q2 ∈ mat text f2 b q.1,
        res = (q2.1, q.2 ++ q2.2) := by
  cases fuel with
  | zero => simp [mat] at h
  | succ f =>
    simp only [mat, List.mem_flatMap, List.mem_map] at h
    obtain ⟨q, hq, q2, hq2, rfl⟩ := h
    exact ⟨f, rfl, q, hq, q2, hq2, rfl⟩

theorem mem_mat_group {text : List Char} {fuel : Nat} {r : Regex}
    {pos : Nat} {res : Nat × List (Nat × Nat)}
    (h : res ∈ mat text fuel (.group r) pos) :
    ∃ f2, fuel = f2 + 1 ∧
      ∃ q ∈ mat text f2 r pos, res = (q.1, (pos, q.1) :: q.2) := by
  cases fuel with
  | zero => simp [mat] at h
  | succ f =>
    simp only [mat, List.mem_map] at h
    obtain ⟨q, hq, rfl⟩ := h
    exact ⟨f, rfl, q, hq, rfl⟩

theorem mem_mat_cls {text : List Char} {fuel : Nat} {p : Char → Bool}
    {pos : Nat} {res : Nat × List (Nat × Nat)}
    (h : res ∈ mat text fuel (.cls p) pos) : res = (pos + 1, []) := by
  cases fuel with
  | zero => simp [mat] at h
  | succ f =>
    simp only [mat] at h
    cases hg : text[pos]? with
    | none => simp [hg] at h
    | some c =>
      simp only [hg] at h
      by_cases hc : p c
      · simp [hc] at h; simp [h, Prod.ext_iff]
      · simp [hc] at h

theorem mem_mat_lit {text : List Char} {fuel : Nat} {sl : List Char}
    {pos : Nat} {res : Nat × List (Nat × Nat)}
    (h : res ∈ mat text fuel (.lit sl) pos) : res = (pos + sl.length, []) := by
  cases fuel with
  | zero => simp [mat] at h
  | succ f =>
    simp only [mat] at h
    by_cases hp : sl.isPrefixOf (text.drop pos) <;> simp [hp] at h
    simp [h, Prod.ext_iff]

theorem mem_mat_eps {text : List Char} {fuel : Nat} {pos : Nat}
    {res : Nat × List (Nat × Nat)} (h : res ∈ mat text fuel .eps pos) :
    res = (pos, []) := by
  cases fuel with
  | zero => simp [mat] at h
  | succ f => simp [mat] at h; simp [h, Prod.ext_iff]

/-- C5: the nested block comment `\x7b- outer \x7b- inner -\x7d still outer -\x7d`
is tokenized entirely as Comment.Multiline spans whose texts concatenate to
the whole input; the inner `\x7b-` (driver iteration 9, at offset 9) pushes
the comment state a second time, and the inner `-\x7d` (iteration 17, at
offset 18) pops back to a single comment state, so the outer comment is not
terminated by the inner closer. -/
theorem C5_nested_comment :
    ((tokenizeStr "\x7b- outer \x7b- inner -\x7d still outer -\x7d").all
        (fun sp => decide (sp.tok = Tok.CommentMultiline)) = true)
  ∧ (tokenizeStr "\x7b- outer \x7b- inner -\x7d still outer -\x7d").flatMap
        (spanText ("\x7b- outer \x7b- inner -\x7d still outer -\x7d".data)) =
      "\x7b- outer \x7b- inner -\x7d still outer -\x7d".data
  ∧ posStackAfter ("\x7b- outer \x7b- inner -\x7d still outer -\x7d".data) 9 =
      (11, [SName.comment, SName.comment, SName.root])
  ∧ posStackAfter ("\x7b- outer \x7b- inner -\x7d still outer -\x7d".data) 17 =
      (20, [SName.comment, SName.root]) := by
  refine ⟨by decide, by decide, by decide, by decide⟩

/-- C7 fails on the code: `module Foo.Bar` is not three spans
Keyword/Whitespace/Name — the module-state name rule demands a lowercase
first letter, so `F` falls through to the Error fallback. -/
theorem C7_counterexample :
    tokenizeStr "module Foo.Bar" ≠
      [⟨0, 6, Tok.KeywordReserved⟩, ⟨6, 7, Tok.Whitespace⟩,
        ⟨7, 14, Tok.Name⟩] := by
  decide

/-- C7 (amended): `module Foo.Bar` yields four spans — Keyword `module`,
Whitespace, a one-character Error span on `F` (the module-name rule
`[`uni.Ll`][\w.]*` requires a lowercase first letter), then a Name span
covering `oo.Bar`. -/
theorem C7_module_amended :
    tokenizeStr "module Foo.Bar" =
      [⟨0, 6, Tok.KeywordReserved⟩, ⟨6, 7, Tok.Whitespace⟩,
        ⟨7, 8, Tok.Error⟩, ⟨8, 14, Tok.Name⟩] := by
  decide

/-- C9: the root `export` rule `^(export)(\s+)([\w+])` captures a single
character class as its third group: every match of the rule's pattern
yields exactly three captures, the third exactly one character wide and
flush with the match end — so the Name span is one character and the rest
of a longer identifier is left to later rules, as the tokenization of
`export foo` shows (the trailing `oo` becomes a separate Name span via the
root lowercase-identifier rule). -/
theorem C9_export_single_char :
    (∀ (text : List Char) (pos m : Nat) (caps : List (Nat × Nat)),
       pyMatch text
         (.cat .bol (gcat [rlit "export", plus (.cls isSpaceC),
           .cls exportCls])) pos = some (m, caps) →
       ∃ a b : Nat, caps = [(pos, a), (a, b), (b, b + 1)] ∧ m = b + 1)
  ∧ tokenizeStr "export foo" =
      [⟨0, 6, Tok.KeywordReserved⟩, ⟨6, 7, Tok.Whitespace⟩,
        ⟨7, 8, Tok.Name⟩, ⟨8, 10, Tok.Name⟩] := by
  constructor
  · intro text pos m caps h
    have hmm := head?_mem h
    simp only [gcat] at hmm
    obtain ⟨f1, -, q0, hq0, q1, hq1, hres⟩ := mem_mat_cat hmm
    have hq00 := mat_bol_mem hq0
    have hq01 : q0.1 = pos := by rw [hq00]
    have hq02 : q0.2 = [] := by rw [hq00]
    rw [hq01] at hq1
    obtain ⟨f2, -, qa, hqa, qb, hqb, hres1⟩ := mem_mat_cat hq1
    obtain ⟨f3, -, p1, hp1, hqa1⟩ := mem_mat_group hqa
    have hp12 : p1.2 = [] := by rw [mem_mat_lit hp1]
    have hqa1' : qa.1 = p1.1 := by rw [hqa1]
    have hqa2 : qa.2 = (pos, p1.1) :: p1.2 := by rw [hqa1]
    rw [hqa1'] at hqb
    obtain ⟨f4, -, qc, hqc, qd, hqd, hres2⟩ := mem_mat_cat hqb
    obtain ⟨f5, -, p2, hp2, hqc1⟩ := mem_mat_group hqc
    have hp22 : p2.2 = [] := mat_nogroups _ _ _ _ (by rfl) hp2
    have hqc1' : qc.1 = p2.1 := by rw [hqc1]
    have hqc2 : qc.2 = (p1.1, p2.1) :: p2.2 := by rw [hqc1]
    rw [hqc1'] at hqd
    obtain ⟨f6, -, qe, hqe, qf, hqf, hres3⟩ := mem_mat_cat hqd
    obtain ⟨f7, -, p3, hp3, hqe1⟩ := mem_mat_group hqe
    have hp31 : p3.1 = p2.1 + 1 := by rw [mem_mat_cls hp3]
    have hp32 : p3.2 = [] := by rw [mem_mat_cls hp3]
    have hqe1' : qe.1 = p3.1 := by rw [hqe1]
    have hqe2 : qe.2 = (p2.1, p3.1) :: p3.2 := by rw [hqe1]
    rw [hqe1'] at hqf
    have hqf0 := mem_mat_eps hqf
    have hqf1 : qf.1 = p3.1 := by rw [hqf0]
    have hqf2 : qf.2 = [] := by rw [hqf0]
    have hm : m = qb.1 := by
      have h1 := congrArg Prod.fst hres
      have h2 := congrArg Prod.fst hres1
      simp at h1 h2
      rw [h1, h2]
    have hcaps : caps = qa.2 ++ qb.2 := by
      have h1 := congrArg Prod.snd hres
      have h2 := congrArg Prod.snd hres1
      simp [hq02] at h1 h2
      rw [h1, h2]
    have hqbv : qb.1 = qd.1 ∧ qb.2 = qc.2 ++ qd.2 := by
      constructor <;> [rw [hres2]; rw [hres2]]
    have hqdv : qd.1 = qf.1 ∧ qd.2 = qe.2 ++ qf.2 := by
      constructor <;> [rw [hres3]; rw [hres3]]
    refine ⟨p1.1, p2.1, ?_, ?_⟩
    · rw [hcaps, hqa2, hqbv.2, hqc2, hqdv.2, hqe2, hqf2, hp12, hp22, hp32,
        hp31]
      simp
    · rw [hm, hqbv.1, hqdv.1, hqf1, hp31]
  · decide

theorem C9_witness :
    ∃ a b : Nat,
      (pyMatch ("export x".data)
        (.cat .bol (gcat [rlit "export", plus (.cls isSpaceC),
          .cls exportCls])) 0 = some (b + 1, [(0, a), (a, b), (b, b + 1)])) := by
  obtain ⟨a, b, hc, hm⟩ := C9_export_single_char.1 "export x".data 0 8
    [(0, 6), (6, 7), (7, 8)] (by decide)
  exact ⟨a, b, by rw [← hc, ← hm]; decide⟩

/-- C6 fails on the code: after the backslash in `"\c"` the escape state is
on top, but `c` matches none of the six escape rules, so the very next
driver step does not match an escape rule and does not pop — it emits a
one-character Error span and leaves the stack unchanged. -/
theorem C6_counterexample :
    posStackAfter ("\"\\c\"".data) 2 =
        (2, [SName.escape, SName.string, SName.root])
  ∧ findMatch ("\"\\c\"".data) (tokens SName.escape) 2 = none
  ∧ step tokens ("\"\\c\"".data) 2 [SName.escape, SName.string, SName.root] =
      ([⟨2, 3, Tok.Error⟩], 3, [SName.escape, SName.string, SName.root]) := by
  refine ⟨by decide, rfl, by decide⟩

/-- C6 (amended): all six escape rules pop, so whenever the escape state is
on top and some escape rule matches at the cursor, that driver step leaves
the escape state; but not every character following the backslash matches
an escape rule — at a non-matching character (such as `c` in `"\c"`) the
step emits a one-character Error span and the escape state stays on top. -/
theorem C6_escape_amended :
    (∀ (text : List Char) (pos : Nat) (stk : List SName) (ru : Rule)
       (m : Nat) (caps : List (Nat × Nat)),
       stk ≠ [] →
       findMatch text (tokens SName.escape) pos = some (ru, m, caps) →
       (step tokens text pos (SName.escape :: stk)).2.2 = stk)
  ∧ step tokens ("\"\\c\"".data) 2 [SName.escape, SName.string, SName.root] =
      ([⟨2, 3, Tok.Error⟩], 3, [SName.escape, SName.string, SName.root]) := by
  constructor
  · intro text pos stk ru m caps hne hfm
    have hmem := (findMatch_some _ _ _ _ _ hfm).1
    have htr : ru.trans = [StackOp.pop] := by
      have hall : (tokens SName.escape).all
          (fun r2 => decide (r2.trans = [StackOp.pop])) = true := by decide
      have := List.all_eq_true.mp hall ru hmem
      simpa using this
    simp only [step, topState, List.headD, hfm, htr]
    cases stk with
    | nil => exact absurd rfl hne
    | cons a r => simp [applyOp]
  · decide

theorem C6_witness :
    (step tokens ("n".data) 0 [SName.escape, SName.string, SName.root]).2.2 =
      [SName.string, SName.root] :=
  C6_escape_amended.1 "n".data 0 [SName.string, SName.root]
    ⟨.cls escCharCls, .tok .StrEscape, [.pop]⟩ 1 []
    (by simp) rfl

/-- C8: what the code actually produces on `source R ("f" as g)` — and
that it differs from the claimed sequence.  The rule that would emit
Keyword `as` (the sourcelist alias rule) is shadowed by the plain string
rule declared before it, and bare `as`/`g` match no sourcelist rule, so
the code emits one-character Error spans for `a`, `s` and `g` where the
claim expects Keyword `as` and Name `g`. -/
theorem C8_sourcelist_actual :
    tokenizeStr "source R (\"f\" as g)" =
      [⟨0, 6, .KeywordReserved⟩, ⟨6, 7, .Whitespace⟩, ⟨7, 8, .Name⟩,
        ⟨8, 9, .Whitespace⟩, ⟨9, 10, .Text⟩, ⟨10, 13, .Str⟩,
        ⟨13, 14, .Whitespace⟩, ⟨14, 15, .Error⟩, ⟨15, 16, .Error⟩,
        ⟨16, 17, .Whitespace⟩, ⟨17, 18, .Error⟩, ⟨18, 19, .Text⟩]
  ∧ tokenizeStr "source R (\"f\" as g)" ≠
      [⟨0, 6, .KeywordReserved⟩, ⟨6, 7, .Whitespace⟩, ⟨7, 8, .Name⟩,
        ⟨8, 9, .Whitespace⟩, ⟨9, 10, .Text⟩, ⟨10, 13, .Str⟩,
        ⟨13, 14, .Whitespace⟩, ⟨14, 16, .Keyword⟩, ⟨16, 17, .Whitespace⟩,
        ⟨17, 18, .Name⟩, ⟨18, 19, .Text⟩] := by
  refine ⟨by decide, by decide⟩

/-- Wherever the alias rule's pattern matches, the plain sourcelist string
rule already matches: the alias pattern opens with the very same
`"[^"]+"` subpattern. -/
theorem alias_needs_quoted {text : List Char} {pos : Nat}
    (hq : pyMatch text quoted pos = none) :
    pyMatch text aliasRule.pattern pos = none := by
  rw [pyMatch]
  cases hl : mat text (bigFuel text) aliasRule.pattern pos with
  | nil => rfl
  | cons res rest =>
    exfalso
    have hmem : res ∈ mat text (bigFuel text) aliasRule.pattern pos := by
      rw [hl]
      exact List.mem_cons_self _ _
    have hpat : aliasRule.pattern =
        .cat (.group quoted) (gcat [plus (.cls isSpaceC), rlit "as",
          plus (.cls isSpaceC), plus (.cls isWordC)]) := rfl
    rw [hpat] at hmem
    obtain ⟨f2, hf2, q, hq2, -, -, -⟩ := mem_mat_cat hmem
    obtain ⟨f3, hf3, p, hp, -⟩ := mem_mat_group hq2
    have hpin := mat_mono f3 (bigFuel text) (by omega) quoted pos p hp
    rw [pyMatch] at hq
    cases hml : mat text (bigFuel text) quoted pos with
    | nil => rw [hml] at hpin; simp at hpin
    | cons x xs => rw [hml] at hq; simp at hq

/-- Scanning the sourcelist rules with or without the trailing alias rule
is the same. -/
theorem sourcelist_findMatch_eq {text : List Char} {pos : Nat} :
    findMatch text sourcelistRules pos = findMatch text sourcelistCommon pos := by
  have : sourcelistRules = sourcelistCommon ++ [aliasRule] := rfl
  rw [this]
  apply findMatch_snoc_none
  intro hnone
  apply alias_needs_quoted
  have hmem : (⟨quoted, Action.tok Tok.Str, []⟩ : Rule) ∈ sourcelistCommon := by
    simp [sourcelistCommon]
  have := findMatch_none _ _ hnone _ hmem
  simpa using this

theorem tbl_findMatch_eq (text : List Char) (pos : Nat) (s : SName) :
    findMatch text (tokens s) pos = findMatch text (tokensNoAlias s) pos := by
  cases s
  case sourcelist => exact sourcelist_findMatch_eq
  all_goals rfl

theorem step_noAlias (text : List Char) (pos : Nat) (stk : List SName) :
    step tokens text pos stk = step tokensNoAlias text pos stk := by
  unfold step
  rw [tbl_findMatch_eq text pos (topState stk)]

theorem tokenizeAux_noAlias (text : List Char) :
    ∀ (fuel pos : Nat) (stk : List SName),
      tokenizeAux tokens text fuel pos stk =
        tokenizeAux tokensNoAlias text fuel pos stk := by
  intro fuel
  induction fuel with
  | zero => intro pos stk; rfl
  | succ f ih =>
    intro pos stk
    simp only [tokenizeAux]
    by_cases hp : pos < text.length
    · simp only [if_pos hp, step_noAlias, ih]
    · simp [hp]

/-- A `bygroups` emission only produces tokens from the declared list. -/
theorem emitGroups_toks :
    ∀ (caps : List (Nat × Nat)) (ts : List Tok) (sp : Span),
      sp ∈ emitGroups caps ts → sp.tok ∈ ts := by
  intro caps
  induction caps with
  | nil => intro ts sp h; simp [emitGroups] at h
  | cons c cs ih =>
    intro ts sp h
    obtain ⟨sx, ex⟩ := c
    cases ts with
    | nil => simp [emitGroups] at h
    | cons t ts2 =>
      simp only [emitGroups] at h
      by_cases he : sx = ex
      · rw [if_pos he] at h
        exact List.mem_cons_of_mem _ (ih ts2 sp h)
      · rw [if_neg he] at h
        rcases List.mem_cons.mp h with rfl | hmem
        · simp
        · exact List.mem_cons_of_mem _ (ih ts2 sp hmem)

/-- Every span a step emits is either the Error fallback or carries a
token from the matched rule's action. -/
theorem step_toks {tbl : SName → List Rule} {text : List Char} {pos : Nat}
    {stk : List SName} {sp : Span} (h : sp ∈ (step tbl text pos stk).1) :
    sp.tok = Tok.Error ∨
      ∃ ru ∈ tbl (topState stk), sp.tok ∈ actionToks ru.action := by
  rw [step] at h
  cases hfm : findMatch text (tbl (topState stk)) pos with
  | none =>
    rw [hfm] at h
    simp at h
    left
    rw [h]
  | some q =>
    obtain ⟨ru, m, caps⟩ := q
    rw [hfm] at h
    simp only at h
    right
    refine ⟨ru, (findMatch_some _ _ _ _ _ hfm).1, ?_⟩
    cases hact : ru.action with
    | tok t =>
      rw [hact] at h
      simp [emit] at h
      simp [h, actionToks]
    | byGroups ts =>
      rw [hact] at h
      simp only [emit] at h
      simpa [actionToks] using emitGroups_toks caps ts sp h

/-- The alias-free table never emits the plain Keyword category. -/
theorem tokenizeAux_no_keyword (text : List Char) :
    ∀ (fuel pos : Nat) (stk : List SName) (sp : Span),
      sp ∈ tokenizeAux tokensNoAlias text fuel pos stk →
      sp.tok ≠ Tok.Keyword := by
  intro fuel
  induction fuel with
  | zero => intro pos stk sp h; simp [tokenizeAux] at h
  | succ f ih =>
    intro pos stk sp h
    simp only [tokenizeAux] at h
    by_cases hp : pos < text.length
    · rw [if_pos hp] at h
      rcases List.mem_append.mp h with hm | hm
      · rcases step_toks hm with he | ⟨ru, hru, ht⟩
        · rw [he]; intro hcon; exact Tok.noConfusion hcon
        · have hall : ∀ s2 : SName, (tokensNoAlias s2).all
              (fun r2 => (actionToks r2.action).all
                (fun t => !decide (t = Tok.Keyword))) = true := by
            intro s2
            cases s2 <;> decide
          have := List.all_eq_true.mp (hall (topState stk)) ru hru
          have := List.all_eq_true.mp this sp.tok ht
          simpa using this
      · exact ih _ _ sp hm
    · rw [if_neg hp] at h
      simp at h

/-- C10: the sourcelist alias rule is dead code — any position where it
could match starts with `"`, where the earlier plain string rule already
matches, so removing it leaves the emitted span sequence of every input
unchanged; consequently no span with the plain Keyword category (the
alias rule's `as` token, the only use of that category in the table) is
ever produced. -/
theorem C10_alias_dead :
    (∀ text : List Char,
       tokenizeWith tokens text = tokenizeWith tokensNoAlias text)
  ∧ (∀ (text : List Char) (sp : Span),
       sp ∈ tokenize text → sp.tok ≠ Tok.Keyword) := by
  constructor
  · intro text
    exact tokenizeAux_noAlias text text.length 0 [.root]
  · intro text sp hsp
    rw [tokenize, tokenizeWith, tokenizeAux_noAlias] at hsp
    exact tokenizeAux_no_keyword text text.length 0 [.root] sp hsp

theorem C10_witness : (⟨0, 2, Tok.Name⟩ : Span).tok ≠ Tok.Keyword :=
  C10_alias_dead.2 "as".data ⟨0, 2, Tok.Name⟩ (by decide)

end Morloc
